import Mathlib

/-!
Verification of the Policy Retrieval & Freshness Engine of the youthyAI
repository.  The definitions below are a shallow embedding of the Python
code in `backend/app/services/youthcenter_api.py` and
`backend/app/services/rag_service.py`.  Text is modelled as `List Char`
(Python `str`), calendar dates as the natural number `y*10000 + m*100 + d`
(order-isomorphic to Python `datetime.date` on valid dates), missing
dictionary keys as `Option`, and the ambient `date.today()` as an explicit
`today` parameter.  Python's `\s`/`str.strip` whitespace set is modelled by
the ASCII whitespace characters, and `str.lower` by ASCII case mapping;
the Korean keywords used by the code are unaffected by case mapping.
-/

namespace YouthyAI

/-- ASCII whitespace, modelling Python's whitespace class for `strip`,
`split` and the regex class used by the period parser. -/
def isWS (c : Char) : Bool :=
  c = ' ' || c = '\t' || c = '\n' || c = '\x0d' || c = '\x0b' || c = '\x0c'

/-- ASCII decimal digit, modelling the regex class `\d` on the inputs used. -/
def isDigit (c : Char) : Bool := '0' ≤ c && c ≤ '9'

/-- Numeric value of a digit character. -/
def dval (c : Char) : Nat := c.toNat - '0'.toNat

/-- The separator class from the regex dot, dash or slash. -/
def isSep (c : Char) : Bool := c = '.' || c = '-' || c = '/'

/-- Python `str.strip()`: drop leading and trailing whitespace. -/
def pyStrip (l : List Char) : List Char :=
  ((l.dropWhile isWS).reverse.dropWhile isWS).reverse

/-- Python `str.lower()` restricted to ASCII case mapping. -/
def pyLower (l : List Char) : List Char := l.map Char.toLower

/-- Does the first list occur as a leading segment of the second list. -/
def startsWithL : List Char → List Char → Bool
  | [], _ => true
  | _ :: _, [] => false
  | a :: as, b :: bs => a = b && startsWithL as bs

/-- Python's substring operator `needle in hay` on strings. -/
def containsL (needle : List Char) : List Char → Bool
  | [] => startsWithL needle []
  | c :: rest => startsWithL needle (c :: rest) || containsL needle rest

/-- Python `str.split()` with no arguments: split on whitespace runs,
discarding empty pieces.  `cur` holds the reversed current word. -/
def splitAux : List Char → List Char → List (List Char)
  | [], cur => if cur = [] then [] else [cur.reverse]
  | c :: rest, cur =>
    if isWS c then
      (if cur = [] then splitAux rest [] else cur.reverse :: splitAux rest [])
    else splitAux rest (c :: cur)

/-- Python `str.split()` with no arguments. -/
def pySplit (l : List Char) : List (List Char) := splitAux l []

/-- Insertion step of an ascending insertion sort on naturals. -/
def insNat (x : Nat) : List Nat → List Nat
  | [] => [x]
  | y :: ys => if x ≤ y then x :: y :: ys else y :: insNat x ys

/-- Ascending sort, modelling Python `list.sort()` on dates. -/
def sortAsc (l : List Nat) : List Nat := l.foldr insNat []

/-- Gregorian leap-year rule used by Python `datetime.date`. -/
def isLeap (y : Nat) : Bool := y % 4 = 0 && (y % 100 ≠ 0 || y % 400 = 0)

/-- Days in a month, as validated by the `datetime.date` constructor. -/
def daysInMonth (y m : Nat) : Nat :=
  if m = 2 then (if isLeap y then 29 else 28)
  else if m = 4 || m = 6 || m = 9 || m = 11 then 30
  else 31

/-- Validity check performed by the `datetime.date(y, m, d)` constructor;
invalid triples raise `ValueError`, which the parser catches and skips. -/
def validDate (y m d : Nat) : Bool :=
  1 ≤ y && y ≤ 9999 && 1 ≤ m && m ≤ 12 && 1 ≤ d && d ≤ daysInMonth y m

/-- Order-preserving encoding of a calendar date as a natural number. -/
def encDate (y m d : Nat) : Nat := y * 10000 + m * 100 + d

/-- Match the trailing `(\d{1,2})` group (greedy): one or two digit
characters; returns the value and the number of characters consumed. -/
def matchDay : List Char → Option (Nat × Nat)
  | a :: b :: _ =>
    if isDigit a then
      (if isDigit b then some (dval a * 10 + dval b, 2) else some (dval a, 1))
    else none
  | [a] => if isDigit a then some (dval a, 1) else none
  | [] => none

/-- Match `digits-sep-digits` (month, separator, day) part.  When the
second character is a digit the one-digit-month alternative cannot succeed
(the separator position would hold a digit), so no further backtracking is
needed; this mirrors the regex engine's behaviour. -/
def matchMD : List Char → Option (Nat × Nat × Nat)
  | a :: b :: rest =>
    if isDigit a then
      if isDigit b then
        match rest with
        | s :: rest2 =>
          if isSep s then
            match matchDay rest2 with
            | some (d, u) => some (dval a * 10 + dval b, d, 3 + u)
            | none => none
          else none
        | [] => none
      else if isSep b then
        match matchDay rest with
        | some (d, u) => some (dval a, d, 2 + u)
        | none => none
      else none
    else none
  | _ => none

/-- Matcher for the first pattern `year.month.day` (4-digit year, dot/dash/slash separators)
at the head of the list; yields `(year, month, day, consumed)`. -/
def matchYMD1 : List Char → Option (Nat × Nat × Nat × Nat)
  | a :: b :: c :: d :: s :: rest =>
    if isDigit a && isDigit b && isDigit c && isDigit d && isSep s then
      match matchMD rest with
      | some (m, dy, u) =>
        some (((dval a * 10 + dval b) * 10 + dval c) * 10 + dval d, m, dy, 5 + u)
      | none => none
    else none
  | _ => none

/-- Match `(\d{1,2})` immediately followed by the literal `stop` character
(greedy with backtracking: two digits then `stop`, else one digit then
`stop`); returns value and characters consumed including `stop`. -/
def matchNumThen (stop : Char) : List Char → Option (Nat × Nat)
  | a :: b :: c :: _ =>
    if isDigit a then
      if isDigit b && c = stop then some (dval a * 10 + dval b, 3)
      else if b = stop then some (dval a, 2)
      else none
    else none
  | [a, b] => if isDigit a && b = stop then some (dval a, 2) else none
  | _ => none

/-- Matcher for the second pattern `(\d{4})년\s*(\d{1,2})월\s*(\d{1,2})일`. -/
def matchYMD2 : List Char → Option (Nat × Nat × Nat × Nat)
  | a :: b :: c :: d :: n :: rest =>
    if isDigit a && isDigit b && isDigit c && isDigit d && n = '년' then
      let w1 := (rest.takeWhile isWS).length
      let r1 := rest.dropWhile isWS
      match matchNumThen '월' r1 with
      | none => none
      | some (m, u1) =>
        let r2 := r1.drop u1
        let w2 := (r2.takeWhile isWS).length
        let r3 := r2.dropWhile isWS
        match matchNumThen '일' r3 with
        | none => none
        | some (dy, u2) =>
          some (((dval a * 10 + dval b) * 10 + dval c) * 10 + dval d,
                m, dy, 5 + w1 + u1 + w2 + u2)
    else none
  | _ => none

/-- Matcher for the third pattern `yy.month.day` (2-digit year, dot/dash/slash separators)
with the two-digit-year fix-up from the code: years below 50 map to 20xx,
the rest to 19xx. -/
def matchYMD3 : List Char → Option (Nat × Nat × Nat × Nat)
  | a :: b :: s :: rest =>
    if isDigit a && isDigit b && isSep s then
      match matchMD rest with
      | some (m, dy, u) =>
        let y2 := dval a * 10 + dval b
        some ((if y2 < 50 then 2000 + y2 else 1900 + y2), m, dy, 3 + u)
      | none => none
    else none
  | _ => none

/-- Scanning loop of `re.findall`: try the matcher at every position, emit the
captured triple on success and continue after the consumed characters
(matches never overlap).  `fuel` starts at the text length; every
successful match consumes at least one character, so the fuel never runs
out before the text does. -/
def scanAux (matcher : List Char → Option (Nat × Nat × Nat × Nat)) :
    Nat → List Char → List (Nat × Nat × Nat)
  | 0, _ => []
  | _ + 1, [] => []
  | fuel + 1, c :: rest =>
    match matcher (c :: rest) with
    | some (y, m, d, used) => (y, m, d) :: scanAux matcher fuel (List.drop used (c :: rest))
    | none => scanAux matcher fuel rest

/-- All `(year, month, day)` triples found by the three date patterns, in
pattern order then position order, exactly as the code's findall loop. -/
def rawMatches (t : List Char) : List (Nat × Nat × Nat) :=
  scanAux matchYMD1 t.length t ++ scanAux matchYMD2 t.length t ++
    scanAux matchYMD3 t.length t

/-- The list of valid dates collected by `_parse_policy_period`: triples
rejected by the `datetime.date` constructor are silently skipped. -/
def findDates (t : List Char) : List Nat :=
  ((rawMatches t).filter fun x => validDate x.1 x.2.1 x.2.2).map
    fun x => encDate x.1 x.2.1 x.2.2

/-- The rolling-admission markers checked before any date matching. -/
def rollingMarkers : List (List Char) :=
  [('상' :: '시' :: []), ('연' :: '중' :: []), ('수' :: '시' :: []), ('계' :: '속' :: [])]

/-- Whether the text contains any rolling-admission marker. -/
def hasRollingMarker (t : List Char) : Bool :=
  rollingMarkers.any fun m => containsL m t

/-- Embedding of `YouthCenterAPIClient._parse_policy_period`.  Returns the
`(start, end)` pair of encoded dates; every branch of the Python function
returns normally (all exceptions are caught), so the embedding is total. -/
def parsePolicyPeriod (t : List Char) : Option Nat × Option Nat :=
  if t = [] || pyStrip t = ('N' :: '/' :: 'A' :: []) then (none, none)
  else if hasRollingMarker t then (none, none)
  else
    let dates := findDates t
    if 2 ≤ dates.length then
      let s := sortAsc dates
      (s.head?, s.getLast?)
    else
      match dates with
      | [d] => (none, some d)
      | _ => (none, none)

/-- A policy record as delivered by the external catalog; the fields are
the dictionary keys the embedded code reads.  A missing or empty string
field is modelled as `[]` (both are falsy in Python, and the code only
tests these fields with `.get(key, '')` followed by truthiness). -/
structure Policy where
  polyBizSjnm : List Char
  sporCn : List Char
  sporTarget : List Char
  rqutPrdCn : List Char
  bizPrdCn : List Char
  bizId : List Char
  polyBizSecd : List Char
deriving DecidableEq

/-- Embedding of `YouthCenterAPIClient._is_policy_expired`.  `today` is the
encoded `date.today()`.  Every exception inside the Python body is caught
and turned into `False`; the embedding is total, so the catch-all branch
has no separate representation. -/
def isPolicyExpired (today : Nat) (p : Policy) : Bool :=
  let appEnd := (parsePolicyPeriod p.rqutPrdCn).2
  if appEnd.any fun e => decide (e < today) then true
  else if p.bizPrdCn ≠ [] then
    (parsePolicyPeriod p.bizPrdCn).2.any fun e => decide (e < today)
  else false

/-- Embedding of `YouthCenterAPIClient._filter_active_policies`: keep the
policies that are not expired (the loop's append order is preserved). -/
def filterActivePolicies (today : Nat) (ps : List Policy) : List Policy :=
  ps.filter fun p => !isPolicyExpired today p

/-- The eight-category taxonomy `YouthCenterAPIClient.POLICY_CATEGORIES`,
as a list of (category, keywords) pairs in dictionary insertion order. -/
def POLICY_CATEGORIES : List (List Char × List (List Char)) :=
  [("취업".data, ["취업".data, "일자리".data, "채용".data, "구직".data, "인턴".data, "구직활동".data]),
   ("창업".data, ["창업".data, "스타트업".data, "사업".data, "기업".data, "벤처".data]),
   ("주거".data, ["주거".data, "월세".data, "전세".data, "임대".data, "주택".data, "거주".data]),
   ("교육".data, ["교육".data, "학습".data, "강의".data, "연수".data, "훈련".data, "스킬".data]),
   ("복지".data, ["복지".data, "지원금".data, "수당".data, "급여".data, "생활비".data, "의료".data]),
   ("문화/예술".data, ["문화".data, "예술".data, "공연".data, "전시".data, "축제".data, "체험".data]),
   ("참여권리".data, ["참여".data, "권리".data, "정치".data, "시민".data, "봉사".data, "활동".data]),
   ("기타".data, ["기타".data, "종합".data, "통합".data, "일반".data])]

/-- Score of one category: each keyword adds 3 when it occurs in the
title, else 1 when it occurs in the combined analysed text. -/
def categoryScore (title text : List Char) (keywords : List (List Char)) : Nat :=
  keywords.foldl
    (fun s kw => if containsL kw title then s + 3
                 else if containsL kw text then s + 1 else s) 0

/-- The lowered title and combined `title content target` text analysed by
`classify_policy_category`. -/
def analysedText (p : Policy) : List Char × List Char :=
  let title := pyLower p.polyBizSjnm
  let content := pyLower p.sporCn
  let target := pyLower p.sporTarget
  (title, title ++ (' ' :: []) ++ content ++ (' ' :: []) ++ target)

/-- The per-category score list, in taxonomy declaration order. -/
def scoreList (p : Policy) : List (List Char × Nat) :=
  POLICY_CATEGORIES.map fun c =>
    (c.1, categoryScore (analysedText p).1 (analysedText p).2 c.2)

/-- Python `max(iterable, key=...)` on the score list: the first entry
whose score no later entry strictly exceeds. -/
def argmaxFirst : List (List Char × Nat) → List Char × Nat
  | [] => ([], 0)
  | [x] => x
  | x :: y :: rest =>
    let b := argmaxFirst (y :: rest)
    if x.2 < b.2 then b else x

/-- Embedding of `YouthCenterAPIClient.classify_policy_category`: the
best-scoring category, falling back to the catch-all on an all-zero score.
The Python body's catch-all exception handler (also returning `기타`) is
unreachable in the total embedding. -/
def classifyPolicyCategory (p : Policy) : List Char :=
  let best := argmaxFirst (scoreList p)
  if best.2 = 0 then "기타".data else best.1

/-- The maximal score in a score list. -/
def maxScore (l : List (List Char × Nat)) : Nat :=
  (l.map fun c => c.2).foldr Nat.max 0

/-- The result the external catalog's `search_policies` hands back after
JSON decoding: the optional `youthPolicy` list (absent key = `none`). -/
structure SearchData where
  youthPolicy : Option (List Policy)
deriving DecidableEq

/-- Embedding of the response handling in
`YouthCenterAPIClient.search_policies` (after a 2xx status): a payload
whose content-type header does not contain `application/json` is replaced
by the default `{"youthPolicy": []}` structure, and a present non-empty
policy list is filtered for expiry. -/
def handleSearchResponse (today : Nat) (contentType : List Char)
    (parsedBody : SearchData) : SearchData :=
  let data := if containsL "application/json".data contentType
              then parsedBody else ⟨some []⟩
  match data.youthPolicy with
  | some (p :: ps) => ⟨some (filterActivePolicies today (p :: ps))⟩
  | _ => data

/-- The id used for deduplication in `search_policies_by_keywords`:
`policy.get("bizId") or policy.get("polyBizSecd")` (empty = falsy). -/
def policyId (p : Policy) : List Char :=
  if p.bizId ≠ [] then p.bizId else p.polyBizSecd

/-- The keyword loop of `search_policies_by_keywords`.  `fetch` stands for
one `search_policies` call: `Except.error` is a raised exception,
`Except.ok none` a payload without the `youthPolicy` key.  An exception
escapes the loop carrying the list accumulated so far (the function's
`except` clause returns `all_policies`). -/
def kwLoop (today : Nat) (fetch : List Char → Except Unit (Option (List Policy))) :
    List (List Char) → List Policy → Except (List Policy) (List Policy)
  | [], acc => Except.ok acc
  | k :: ks, acc =>
    match fetch k with
    | Except.error _ => Except.error acc
    | Except.ok none => kwLoop today fetch ks acc
    | Except.ok (some ps) => kwLoop today fetch ks (acc ++ filterActivePolicies today ps)

/-- What one successful keyword contributes to the accumulated list. -/
def okContribution (today : Nat) (fetch : List Char → Except Unit (Option (List Policy)))
    (k : List Char) : List Policy :=
  match fetch k with
  | Except.ok (some ps) => filterActivePolicies today ps
  | _ => []

/-- The list accumulated by the keyword loop over a run of successful
keywords. -/
def accumKeywords (today : Nat) (fetch : List Char → Except Unit (Option (List Policy)))
    (kws : List (List Char)) : List Policy :=
  (kws.map (okContribution today fetch)).flatten

/-- The dedup-and-truncate loop of `search_policies_by_keywords`: keep a
policy when it has an id not seen before; after every iteration (whether
or not the policy was kept) stop as soon as the kept list has reached
`maxResults` entries. -/
def dedupLoop (maxResults : Nat) : List Policy → List (List Char) → List Policy → List Policy
  | [], _, uniq => uniq
  | p :: ps, seen, uniq =>
    let pid := policyId p
    let st := if pid ≠ [] ∧ pid ∉ seen then (pid :: seen, uniq ++ [p]) else (seen, uniq)
    if maxResults ≤ st.2.length then st.2 else dedupLoop maxResults ps st.1 st.2

/-- Embedding of `YouthCenterAPIClient.search_policies_by_keywords`: run
the keyword loop; on success deduplicate by id and truncate, on a raised
exception return the accumulated list unprocessed. -/
def searchPoliciesByKeywords (today : Nat)
    (fetch : List Char → Except Unit (Option (List Policy)))
    (keywords : List (List Char)) (maxResults : Nat) : List Policy :=
  match kwLoop today fetch keywords [] with
  | Except.ok acc => dedupLoop maxResults acc [] []
  | Except.error acc => acc

/-- Follows the claim's words (not the source): a failed request is
treated as zero results for that keyword and the batch continues, then the
result is deduplicated by id and truncated to `maxResults`. -/
def searchByKeywordsClaimed (today : Nat)
    (fetch : List Char → Except Unit (Option (List Policy)))
    (keywords : List (List Char)) (maxResults : Nat) : List Policy :=
  dedupLoop maxResults (accumKeywords today fetch keywords) [] []

/-- A LangChain document as used by `rag_service.py`: the page content
plus the metadata keys the embedded functions read.  `none` models a
missing metadata key (the code reads keys with `metadata.get`). -/
structure Document where
  pageContent : List Char
  title : Option (List Char)
  source : Option (List Char)
  agency : Option (List Char)
  region : Option (List Char)
  category : Option (List (List Char))
  status : Option (List Char)
  sourceUrl : Option (List Char)
  updatedAt : Option (List Char)
deriving DecidableEq

/-- The trimmed title used as the deduplication key:
`doc.metadata.get('title', '').strip()`. -/
def trimTitle (d : Document) : List Char := pyStrip (d.title.getD [])

/-- The first, deduplicating pass of `_deduplicate_and_rank_docs`: keep a
document when its trimmed title is non-empty and not seen before. -/
def dedupPass : List Document → List (List Char) → List Document
  | [], _ => []
  | d :: ds, seen =>
    if trimTitle d ≠ [] ∧ trimTitle d ∉ seen then d :: dedupPass ds (trimTitle d :: seen)
    else dedupPass ds seen

/-- The query keywords: `set(query.lower().split())`.  Summing an
indicator over the set counts distinct satisfying keywords, which
`List.dedup` reproduces independently of set iteration order. -/
def queryKeywords (q : List Char) : List (List Char) := (pySplit (pyLower q)).dedup

/-- Embedding of the inner `calculate_relevance`: distinct query keywords
found in the lowered title score 3 each, those found in the lowered page
content 1 each, plus a bonus of 2 for documents whose metadata source is
the external catalog `온통청년`. -/
def calculateRelevance (qkw : List (List Char)) (d : Document) : Nat :=
  (qkw.countP fun k => containsL k (pyLower (d.title.getD []))) * 3 +
    (qkw.countP fun k => containsL k (pyLower d.pageContent)) +
    (if d.source = some "온통청년".data then 2 else 0)

/-- Stable insertion of `x` in front of the first element whose relevance
does not exceed it (equal scores keep the earlier element first). -/
def insRel (qkw : List (List Char)) (x : Document) : List Document → List Document
  | [] => [x]
  | y :: ys =>
    if calculateRelevance qkw y ≤ calculateRelevance qkw x then x :: y :: ys
    else y :: insRel qkw x ys

/-- Stable descending sort by relevance, the unique function satisfying
the contract of Python `list.sort(key=..., reverse=True)`. -/
def sortByRelevance (qkw : List (List Char)) (l : List Document) : List Document :=
  l.foldr (insRel qkw) []

/-- Embedding of `RAGService._deduplicate_and_rank_docs`: deduplicate by
trimmed title, then sort by descending relevance (the early-exit for an
empty input list returns the same value as the general path). -/
def dedupAndRankDocs (docs : List Document) (q : List Char) : List Document :=
  sortByRelevance (queryKeywords q) (dedupPass docs [])

/-- Decimal rendering of a natural number, for the 1-based indices that
the context builder and reference extractor interpolate. -/
def natChars (n : Nat) : List Char := (toString n).data

/-- Join a list of texts with the given separator (Python `sep.join`). -/
def joinSep (sep : List Char) : List (List Char) → List Char
  | [] => []
  | [x] => x
  | x :: y :: rest => x ++ sep ++ joinSep sep (y :: rest)

/-- One `[정책 i]` block of the context string built by
`_build_context_from_docs`, with the code's `metadata.get` defaults. -/
def contextPart (i : Nat) (d : Document) : List Char :=
  "\n[정책 ".data ++ natChars i ++ "]\n제목: ".data ++ d.title.getD "제목 없음".data ++
  "\n기관: ".data ++ d.agency.getD "기관 없음".data ++
  "\n지역: ".data ++ d.region.getD "지역 없음".data ++
  "\n카테고리: ".data ++ joinSep ", ".data (d.category.getD []) ++
  "\n상태: ".data ++ d.status.getD "상태 없음".data ++
  "\n출처: ".data ++ d.sourceUrl.getD "URL 없음".data ++
  "\n\n내용:\n".data ++ d.pageContent.take 800 ++ "...\n\n---\n".data

/-- The 1-indexed context blocks for a document list. -/
def contextParts : Nat → List Document → List (List Char)
  | _, [] => []
  | i, d :: ds => contextPart i d :: contextParts (i + 1) ds

/-- Embedding of `RAGService._build_context_from_docs`: an empty document
list yields the sentinel text, otherwise the newline-joined blocks. -/
def buildContextFromDocs (docs : List Document) : List Char :=
  if docs = [] then "관련 정책 정보를 찾을 수 없습니다.".data
  else joinSep ("\n".data) (contextParts 1 docs)

/-- The citation snippet of `_extract_references_from_docs`: first 200
characters of the content with newlines turned into spaces and the ends
trimmed, plus an ellipsis exactly when the content is longer than 200. -/
def refSnippet (d : Document) : List Char :=
  let s := pyStrip ((d.pageContent.take 200).map fun c => if c = '\n' then ' ' else c)
  if 200 < d.pageContent.length then s ++ "...".data else s

/-- One citation record built by `_extract_references_from_docs`.  The
constant float field `relevance_score: 0.8` is not modelled; `nowIso`
stands for the ambient `datetime.now().isoformat()` default. -/
structure Reference where
  refId : List Char
  title : List Char
  url : List Char
  snippet : List Char
  source : List Char
  lastUpdated : List Char
deriving DecidableEq

/-- The citation record for one document at 1-based index `i`. -/
def mkRef (nowIso : List Char) (i : Nat) (d : Document) : Reference :=
  { refId := "ref_".data ++ natChars i
    title := d.title.getD "제목 없음".data
    url := d.sourceUrl.getD ('#' :: [])
    snippet := refSnippet d
    source := d.agency.getD "기관 없음".data
    lastUpdated := d.updatedAt.getD nowIso }

/-- The enumeration loop of `_extract_references_from_docs`. -/
def refsFrom (nowIso : List Char) : Nat → List Document → List Reference
  | _, [] => []
  | i, d :: ds => mkRef nowIso i d :: refsFrom nowIso (i + 1) ds

/-- Embedding of `RAGService._extract_references_from_docs`. -/
def extractReferencesFromDocs (nowIso : List Char) (docs : List Document) :
    List Reference :=
  refsFrom nowIso 1 docs

/-- Concrete policy used to exercise the keyword search: it carries an id
and no period texts, so it is never classified as expired. -/
def cxPolicy : Policy :=
  { polyBizSjnm := [], sporCn := [], sporTarget := [], rqutPrdCn := [],
    bizPrdCn := [], bizId := 'p' :: '1' :: [], polyBizSecd := [] }

/-- A fetch oracle whose first keyword request raises and whose second
succeeds with one policy. -/
def cxFetchFail (k : List Char) : Except Unit (Option (List Policy)) :=
  if k = "b".data then Except.ok (some [cxPolicy]) else Except.error ()

/-- A fetch oracle that always succeeds with one policy. -/
def cxFetchOk (_ : List Char) : Except Unit (Option (List Policy)) :=
  Except.ok (some [cxPolicy])

/-- A policy whose title consists of the single startup keyword. -/
def startupPolicy : Policy :=
  { polyBizSjnm := "창업".data, sporCn := [], sporTarget := [], rqutPrdCn := [],
    bizPrdCn := [], bizId := [], polyBizSecd := [] }

/-- A document titled `A` (upper case). -/
def cxDocA : Document :=
  { pageContent := "x".data, title := some ('A' :: []), source := none,
    agency := none, region := none, category := none, status := none,
    sourceUrl := none, updatedAt := none }

/-- A document titled `a` (lower case), otherwise like `cxDocA`. -/
def cxDocB : Document :=
  { pageContent := "y".data, title := some ('a' :: []), source := none,
    agency := none, region := none, category := none, status := none,
    sourceUrl := none, updatedAt := none }

/-- A document with a normal non-empty title. -/
def cxDocW : Document :=
  { pageContent := "z".data, title := some "청년정책".data, source := none,
    agency := none, region := none, category := none, status := none,
    sourceUrl := none, updatedAt := none }

theorem length_dropWhile_le' {α : Type} (p : α → Bool) (l : List α) :
    (l.dropWhile p).length ≤ l.length := by
  induction l with
  | nil => simp [List.dropWhile]
  | cons a l ih =>
    simp only [List.dropWhile_cons]
    split
    · exact Nat.le_succ_of_le ih
    · exact Nat.le_refl _

theorem pyStrip_length_le (l : List Char) : (pyStrip l).length ≤ l.length := by
  unfold pyStrip
  rw [List.length_reverse]
  calc ((l.dropWhile isWS).reverse.dropWhile isWS).length
      ≤ (l.dropWhile isWS).reverse.length := length_dropWhile_le' _ _
    _ = (l.dropWhile isWS).length := List.length_reverse _
    _ ≤ l.length := length_dropWhile_le' _ _

theorem refSnippet_length_le (d : Document) : (refSnippet d).length ≤ 203 := by
  unfold refSnippet
  have hs : (pyStrip ((d.pageContent.take 200).map
      fun c => if c = '\n' then ' ' else c)).length ≤ 200 := by
    calc (pyStrip ((d.pageContent.take 200).map
          fun c => if c = '\n' then ' ' else c)).length
        ≤ ((d.pageContent.take 200).map
            fun c => if c = '\n' then ' ' else c).length := pyStrip_length_le _
      _ = (d.pageContent.take 200).length := List.length_map _ _
      _ ≤ 200 := by rw [List.length_take]; exact min_le_left _ _
  split
  · rw [List.length_append]
    exact Nat.add_le_add hs (Nat.le_refl 3)
  · exact Nat.le_trans hs (by norm_num)

/-- C7: the context assembler returns the sentinel context and an empty
citation list on an empty candidate list (it is a total function, so no
error can be raised), and every citation snippet is at most 203 characters
long: the trimmed, newline-flattened first 200 characters of the content
plus the 3-character ellipsis appended exactly when the content exceeds
200 characters. -/
theorem contextAssembler_empty_and_snippet (nowIso : List Char) :
    buildContextFromDocs [] = "관련 정책 정보를 찾을 수 없습니다.".data
    ∧ extractReferencesFromDocs nowIso [] = []
    ∧ ∀ d : Document, (refSnippet d).length ≤ 203 :=
  ⟨rfl, rfl, fun d => refSnippet_length_le d⟩

/-- C9: when the catalog's response carries a content-type that does not
contain `application/json`, `search_policies` replaces the payload by the
default structure with an empty `youthPolicy` list. -/
theorem searchPolicies_nonjson_empty (today : Nat) (ct : List Char) (body : SearchData)
    (h : containsL "application/json".data ct = false) :
    handleSearchResponse today ct body = ⟨some []⟩ := by
  unfold handleSearchResponse
  simp [h]

/-- Witness for C9 at a concrete HTML content-type. -/
theorem searchPolicies_nonjson_empty_witness :
    containsL "application/json".data "text/html; charset=utf-8".data = false
    ∧ handleSearchResponse 0 "text/html; charset=utf-8".data ⟨some [cxPolicy]⟩ = ⟨some []⟩ :=
  ⟨by decide, searchPolicies_nonjson_empty 0 _ _ (by decide)⟩

/-- C8: the period parser is a total function (so no input makes it raise),
a text containing a rolling-admission marker yields `(none, none)` without
consulting the date patterns, and a text in which the patterns find no
valid date also yields `(none, none)`. -/
theorem parsePeriod_rolling_and_total (t : List Char) :
    (hasRollingMarker t = true → parsePolicyPeriod t = (none, none))
    ∧ (findDates t = [] → parsePolicyPeriod t = (none, none)) := by
  constructor
  · intro h
    unfold parsePolicyPeriod
    split
    · rfl
    · simp [h]
  · intro h
    unfold parsePolicyPeriod
    split
    · rfl
    · split
      · rfl
      · rw [h]
        simp

/-- Witness for C8 at the concrete rolling-admission text `상시모집` and a
concrete garbage text. -/
theorem parsePeriod_rolling_and_total_witness :
    (hasRollingMarker "상시모집".data = true
      ∧ parsePolicyPeriod "상시모집".data = (none, none))
    ∧ (findDates "garbage!!".data = []
      ∧ parsePolicyPeriod "garbage!!".data = (none, none)) :=
  ⟨⟨by decide, (parsePeriod_rolling_and_total "상시모집".data).1 (by decide)⟩,
   ⟨by decide, (parsePeriod_rolling_and_total "garbage!!".data).2 (by decide)⟩⟩

/-- C2: a policy is classified expired exactly when the parsed end of its
application-period text lies strictly before today, or its business-period
text is non-empty and parses to an end strictly before today.  The Python
body's catch-all handler (returning not-expired on any exception) has no
reachable counterpart in the total embedding, so the fail-open default
never fires. -/
theorem isPolicyExpired_iff (today : Nat) (p : Policy) :
    isPolicyExpired today p = true ↔
      (∃ e, (parsePolicyPeriod p.rqutPrdCn).2 = some e ∧ e < today)
      ∨ (p.bizPrdCn ≠ []
          ∧ ∃ e, (parsePolicyPeriod p.bizPrdCn).2 = some e ∧ e < today) := by
  unfold isPolicyExpired
  cases hA : (parsePolicyPeriod p.rqutPrdCn).2 with
  | none =>
    simp only [Option.any_none, Bool.false_eq_true, if_false]
    by_cases hB : p.bizPrdCn = []
    · simp [hB]
    · cases hC : (parsePolicyPeriod p.bizPrdCn).2 with
      | none => simp [hB, hC]
      | some e => simp [hB, hC]
  | some e =>
    by_cases he : e < today
    · simp [he, Option.any_some]
    · simp only [Option.any_some, decide_eq_true_eq, he, if_false]
      by_cases hB : p.bizPrdCn = []
      · simp [hB, he]
      · cases hC : (parsePolicyPeriod p.bizPrdCn).2 with
        | none => simp [hB, hC, he]
        | some f => simp [hB, hC, he]

theorem sortAsc_cons (x : Nat) (xs : List Nat) :
    sortAsc (x :: xs) = insNat x (sortAsc xs) := rfl

theorem mem_insNat {a x : Nat} {l : List Nat} : a ∈ insNat x l ↔ a = x ∨ a ∈ l := by
  induction l with
  | nil => simp [insNat]
  | cons y ys ih =>
    unfold insNat
    split
    · simp [List.mem_cons]
    · simp only [List.mem_cons, ih]
      tauto

theorem mem_sortAsc {a : Nat} {l : List Nat} : a ∈ sortAsc l ↔ a ∈ l := by
  induction l with
  | nil => simp [sortAsc]
  | cons x xs ih => simp [sortAsc_cons, mem_insNat, ih]

theorem length_insNat (x : Nat) (l : List Nat) :
    (insNat x l).length = l.length + 1 := by
  induction l with
  | nil => rfl
  | cons y ys ih =>
    unfold insNat
    split
    · rfl
    · simp [List.length_cons, ih]

theorem length_sortAsc (l : List Nat) : (sortAsc l).length = l.length := by
  induction l with
  | nil => rfl
  | cons x xs ih => simp [sortAsc_cons, length_insNat, ih]

theorem pairwise_insNat {x : Nat} {l : List Nat} (h : l.Pairwise (· ≤ ·)) :
    (insNat x l).Pairwise (· ≤ ·) := by
  induction l with
  | nil => simp [insNat]
  | cons y ys ih =>
    obtain ⟨hy, hys⟩ := List.pairwise_cons.mp h
    unfold insNat
    split
    · rename_i hxy
      exact List.pairwise_cons.mpr
        ⟨fun b hb => by
          rcases List.mem_cons.mp hb with hb | hb
          · exact hb ▸ hxy
          · exact Nat.le_trans hxy (hy b hb), h⟩
    · rename_i hxy
      have hyx : y ≤ x := Nat.le_of_lt (Nat.lt_of_not_le hxy)
      exact List.pairwise_cons.mpr
        ⟨fun b hb => by
          rcases mem_insNat.mp hb with hb | hb
          · exact hb ▸ hyx
          · exact hy b hb, ih hys⟩

theorem pairwise_sortAsc (l : List Nat) : (sortAsc l).Pairwise (· ≤ ·) := by
  induction l with
  | nil => simp [sortAsc]
  | cons x xs ih => exact sortAsc_cons x xs ▸ pairwise_insNat ih

theorem head_min_of_pairwise {s : List Nat} (hp : s.Pairwise (· ≤ ·)) {m : Nat}
    (hh : s.head? = some m) : ∀ a ∈ s, m ≤ a := by
  cases s with
  | nil => simp at hh
  | cons x rest =>
    obtain rfl : x = m := by simpa using hh
    obtain ⟨hx, _⟩ := List.pairwise_cons.mp hp
    intro a ha
    rcases List.mem_cons.mp ha with ha | ha
    · exact ha ▸ Nat.le_refl _
    · exact hx a ha

theorem last_max_of_pairwise {s : List Nat} (hp : s.Pairwise (· ≤ ·)) {b : Nat}
    (hl : s.getLast? = some b) : ∀ a ∈ s, a ≤ b := by
  induction s with
  | nil => simp at hl
  | cons x rest ih =>
    cases rest with
    | nil =>
      obtain rfl : x = b := by simpa [List.getLast?] using hl
      intro a ha
      rcases List.mem_cons.mp ha with ha | ha
      · exact ha ▸ Nat.le_refl _
      · simp at ha
    | cons y r =>
      rw [List.getLast?_cons_cons] at hl
      obtain ⟨hx, hrest⟩ := List.pairwise_cons.mp hp
      intro a ha
      rcases List.mem_cons.mp ha with ha | ha
      · have hbmem : b ∈ y :: r := by
          obtain ⟨hne, hbe⟩ := List.mem_getLast?_eq_getLast (Option.mem_def.mpr hl)
          exact hbe ▸ List.getLast_mem hne
        exact ha ▸ hx b hbmem
      · exact ih hrest hl a ha

theorem isWS_not_digit {c : Char} (h : isWS c = true) : isDigit c = false := by
  simp only [isWS, Bool.or_eq_true, decide_eq_true_eq] at h
  rcases h with ⟨⟨⟨⟨h | h⟩ | h⟩ | h⟩ | h⟩ | h <;> subst h <;> decide

theorem matchYMD1_none_of_head (a : Char) (rest : List Char)
    (h : isDigit a = false) : matchYMD1 (a :: rest) = none := by
  match rest with
  | [] => rfl
  | [_] => rfl
  | [_, _] => rfl
  | [_, _, _] => rfl
  | _ :: _ :: _ :: _ :: _ => simp [matchYMD1, h]

theorem matchYMD2_none_of_head (a : Char) (rest : List Char)
    (h : isDigit a = false) : matchYMD2 (a :: rest) = none := by
  match rest with
  | [] => rfl
  | [_] => rfl
  | [_, _] => rfl
  | [_, _, _] => rfl
  | _ :: _ :: _ :: _ :: _ => simp [matchYMD2, h]

theorem matchYMD3_none_of_head (a : Char) (rest : List Char)
    (h : isDigit a = false) : matchYMD3 (a :: rest) = none := by
  match rest with
  | [] => rfl
  | [_] => rfl
  | _ :: _ :: _ => simp [matchYMD3, h]

theorem scanAux_succ (matcher : List Char → Option (Nat × Nat × Nat × Nat))
    (fuel : Nat) (c : Char) (rest : List Char) :
    scanAux matcher (fuel + 1) (c :: rest) =
      match matcher (c :: rest) with
      | some (y, m, d, used) =>
          (y, m, d) :: scanAux matcher fuel (List.drop used (c :: rest))
      | none => scanAux matcher fuel rest := rfl

theorem scanAux_nil_of_no_digit (matcher : List Char → Option (Nat × Nat × Nat × Nat))
    (hm : ∀ a rest, isDigit a = false → matcher (a :: rest) = none) :
    ∀ (fuel : Nat) (l : List Char), (∀ c ∈ l, isDigit c = false) →
      scanAux matcher fuel l = [] := by
  intro fuel
  induction fuel with
  | zero => intro l _; rfl
  | succ n ih =>
    intro l h
    cases l with
    | nil => rfl
    | cons c rest =>
      rw [scanAux_succ, hm c rest (h c (List.mem_cons_self c rest))]
      exact ih rest fun x hx => h x (List.mem_cons_of_mem c hx)

theorem no_digit_of_strip_NA (t : List Char)
    (h : pyStrip t = ('N' :: '/' :: 'A' :: [])) : ∀ c ∈ t, isDigit c = false := by
  intro c hc
  have h1 : t.takeWhile isWS ++ t.dropWhile isWS = t :=
    List.takeWhile_append_dropWhile _ _
  rcases List.mem_append.mp (h1 ▸ hc) with hws | hu
  · exact isWS_not_digit (List.mem_takeWhile_imp hws)
  · have hcr : c ∈ (t.dropWhile isWS).reverse := List.mem_reverse.mpr hu
    have h2 : (t.dropWhile isWS).reverse.takeWhile isWS ++
        (t.dropWhile isWS).reverse.dropWhile isWS = (t.dropWhile isWS).reverse :=
      List.takeWhile_append_dropWhile _ _
    rcases List.mem_append.mp (h2 ▸ hcr) with hws2 | hst
    · exact isWS_not_digit (List.mem_takeWhile_imp hws2)
    · have hmem : c ∈ pyStrip t := by
        unfold pyStrip
        exact List.mem_reverse.mpr hst
      rw [h] at hmem
      rcases List.mem_cons.mp hmem with rfl | hmem
      · decide
      rcases List.mem_cons.mp hmem with rfl | hmem
      · decide
      rcases List.mem_cons.mp hmem with rfl | hmem
      · decide
      · simp at hmem

theorem findDates_nil_of_strip_NA (t : List Char)
    (h : pyStrip t = ('N' :: '/' :: 'A' :: [])) : findDates t = [] := by
  have hnd := no_digit_of_strip_NA t h
  unfold findDates rawMatches
  rw [scanAux_nil_of_no_digit _ (fun a r ha => matchYMD1_none_of_head a r ha) _ _ hnd,
      scanAux_nil_of_no_digit _ (fun a r ha => matchYMD2_none_of_head a r ha) _ _ hnd,
      scanAux_nil_of_no_digit _ (fun a r ha => matchYMD3_none_of_head a r ha) _ _ hnd]
  rfl

/-- C3: for a period text without rolling-admission marker, whenever the
date patterns match at least two (valid) dates the parser returns the
minimum as start and the maximum as end — so whenever it returns two dates
at all, start ≤ end, which covers every well-formed range input; exactly
one matched date is returned as the end date with no start; no matched
date yields `(none, none)`. -/
theorem parsePeriod_min_max (t : List Char) (hroll : hasRollingMarker t = false) :
    (∀ a b, parsePolicyPeriod t = (some a, some b) → a ≤ b)
    ∧ (2 ≤ (findDates t).length →
        ∃ a b, parsePolicyPeriod t = (some a, some b)
          ∧ a ∈ findDates t ∧ b ∈ findDates t
          ∧ ∀ x ∈ findDates t, a ≤ x ∧ x ≤ b)
    ∧ (∀ d, findDates t = [d] → parsePolicyPeriod t = (none, some d))
    ∧ (findDates t = [] → parsePolicyPeriod t = (none, none)) := by
  by_cases h0 : t = []
  · subst h0
    have hfd : findDates [] = [] := rfl
    refine ⟨?_, ?_, ?_, ?_⟩
    · intro a b hab
      simp [parsePolicyPeriod] at hab
    · intro h2
      rw [hfd] at h2
      simp at h2
    · intro d hd
      rw [hfd] at hd
      simp at hd
    · intro _
      rfl
  · by_cases hNA : pyStrip t = ('N' :: '/' :: 'A' :: [])
    · have hfd : findDates t = [] := findDates_nil_of_strip_NA t hNA
      have hp : parsePolicyPeriod t = (none, none) := by
        unfold parsePolicyPeriod
        simp [hNA]
      refine ⟨?_, ?_, ?_, ?_⟩
      · intro a b hab
        rw [hp] at hab
        simp at hab
      · intro h2
        rw [hfd] at h2
        simp at h2
      · intro d hd
        rw [hfd] at hd
        simp at hd
      · intro _
        exact hp
    · have hp : parsePolicyPeriod t =
          (if 2 ≤ (findDates t).length
           then ((sortAsc (findDates t)).head?, (sortAsc (findDates t)).getLast?)
           else match findDates t with
                | [d] => (none, some d)
                | _ => (none, none)) := by
        unfold parsePolicyPeriod
        simp [h0, hNA, hroll]
      by_cases h2 : 2 ≤ (findDates t).length
      · rw [if_pos h2] at hp
        have hsp := pairwise_sortAsc (findDates t)
        have hne : sortAsc (findDates t) ≠ [] := by
          intro hcon
          have := length_sortAsc (findDates t)
          rw [hcon] at this
          simp at this
          omega
        obtain ⟨m, srest, hs⟩ : ∃ m srest, sortAsc (findDates t) = m :: srest := by
          cases hcase : sortAsc (findDates t) with
          | nil => exact absurd hcase hne
          | cons m srest => exact ⟨m, srest, rfl⟩
        have hhead : (sortAsc (findDates t)).head? = some m := by rw [hs]; rfl
        have hlast : (sortAsc (findDates t)).getLast? =
            some ((sortAsc (findDates t)).getLast hne) :=
          List.getLast?_eq_getLast _ hne
        set b := (sortAsc (findDates t)).getLast hne with hb
        have hmmem : m ∈ findDates t :=
          mem_sortAsc.mp (hs ▸ List.mem_cons_self m srest)
        have hbmem : b ∈ findDates t := mem_sortAsc.mp (List.getLast_mem hne)
        have hmin : ∀ x ∈ findDates t, m ≤ x := fun x hx =>
          head_min_of_pairwise hsp hhead x (mem_sortAsc.mpr hx)
        have hmax : ∀ x ∈ findDates t, x ≤ b := fun x hx =>
          last_max_of_pairwise hsp hlast x (mem_sortAsc.mpr hx)
        have hpeq : parsePolicyPeriod t = (some m, some b) := by
          rw [hp, hhead, hlast]
        refine ⟨?_, ?_, ?_, ?_⟩
        · intro a' b' hab
          rw [hpeq] at hab
          obtain ⟨ha', hb'⟩ := Prod.mk.injEq .. ▸ hab
          obtain rfl : a' = m := by
            have := congrArg Prod.fst hab
            simpa using this.symm
          obtain rfl : b' = b := by
            have := congrArg Prod.snd hab
            simpa using this.symm
          exact hmin b hbmem
        · intro _
          exact ⟨m, b, hpeq, hmmem, hbmem, fun x hx => ⟨hmin x hx, hmax x hx⟩⟩
        · intro d hd
          rw [hd] at h2
          simp at h2
        · intro hd
          rw [hd] at h2
          simp at h2
      · rw [if_neg h2] at hp
        refine ⟨?_, ?_, ?_, ?_⟩
        · intro a' b' hab
          rw [hp] at hab
          cases hcase : findDates t with
          | nil =>
            rw [hcase] at hab
            simp at hab
          | cons d rest =>
            cases rest with
            | nil =>
              rw [hcase] at hab
              simp at hab
            | cons d2 rest2 =>
              rw [hcase] at hab
              simp at hab
        · intro hcon
          exact absurd hcon h2
        · intro d hd
          rw [hp, hd]
        · intro hd
          rw [hp, hd]

/-- Witness for C3: a concrete range text whose textual order is reversed;
the parser returns the minimum as start and the maximum as end. -/
theorem parsePeriod_min_max_witness :
    hasRollingMarker "2024.03.01~2024.01.20".data = false
    ∧ 2 ≤ (findDates "2024.03.01~2024.01.20".data).length
    ∧ ∃ a b, parsePolicyPeriod "2024.03.01~2024.01.20".data = (some a, some b)
        ∧ a ∈ findDates "2024.03.01~2024.01.20".data
        ∧ b ∈ findDates "2024.03.01~2024.01.20".data
        ∧ ∀ x ∈ findDates "2024.03.01~2024.01.20".data, a ≤ x ∧ x ≤ b :=
  ⟨by decide, by decide,
   (parsePeriod_min_max "2024.03.01~2024.01.20".data (by decide)).2.1 (by decide)⟩

theorem kwLoop_ok (today : Nat) (fetch : List Char → Except Unit (Option (List Policy)))
    (kws : List (List Char)) (hok : ∀ k ∈ kws, (fetch k).isOk = true) :
    ∀ acc, kwLoop today fetch kws acc =
      Except.ok (acc ++ accumKeywords today fetch kws) := by
  induction kws with
  | nil => intro acc; simp [kwLoop, accumKeywords]
  | cons k ks ih =>
    intro acc
    have hk : (fetch k).isOk = true := hok k (List.mem_cons_self k ks)
    have hks : ∀ x ∈ ks, (fetch x).isOk = true :=
      fun x hx => hok x (List.mem_cons_of_mem k hx)
    cases hf : fetch k with
    | error e =>
      rw [hf] at hk
      simp [Except.isOk, Except.toBool] at hk
    | ok v =>
      cases v with
      | none =>
        rw [kwLoop, hf]
        rw [ih hks acc]
        simp [accumKeywords, okContribution, hf]
      | some ps =>
        simp only [kwLoop, hf]
        rw [ih hks (acc ++ filterActivePolicies today ps)]
        simp [accumKeywords, okContribution, hf]

theorem kwLoop_err (today : Nat) (fetch : List Char → Except Unit (Option (List Policy)))
    (kws1 : List (List Char)) (k : List Char) (kws2 : List (List Char))
    (hok : ∀ x ∈ kws1, (fetch x).isOk = true) (hk : fetch k = Except.error ()) :
    ∀ acc, kwLoop today fetch (kws1 ++ k :: kws2) acc =
      Except.error (acc ++ accumKeywords today fetch kws1) := by
  induction kws1 with
  | nil =>
    intro acc
    simp only [List.nil_append]
    rw [kwLoop, hk]
    simp [accumKeywords]
  | cons k1 ks ih =>
    intro acc
    have hk1 : (fetch k1).isOk = true := hok k1 (List.mem_cons_self k1 ks)
    have hks : ∀ x ∈ ks, (fetch x).isOk = true :=
      fun x hx => hok x (List.mem_cons_of_mem k1 hx)
    cases hf : fetch k1 with
    | error e =>
      rw [hf] at hk1
      simp [Except.isOk, Except.toBool] at hk1
    | ok v =>
      cases v with
      | none =>
        rw [List.cons_append, kwLoop, hf, ih hks acc]
        simp [accumKeywords, okContribution, hf]
      | some ps =>
        rw [List.cons_append]
        simp only [kwLoop, hf]
        rw [ih hks (acc ++ filterActivePolicies today ps)]
        simp [accumKeywords, okContribution, hf]

theorem dedupLoop_inv (maxR : Nat) (ps : List Policy) :
    ∀ (seen : List (List Char)) (uniq : List Policy),
      uniq.length < maxR →
      (uniq.map policyId).Pairwise (· ≠ ·) →
      (∀ p ∈ uniq, policyId p ∈ seen) →
      ((dedupLoop maxR ps seen uniq).map policyId).Pairwise (· ≠ ·)
      ∧ (dedupLoop maxR ps seen uniq).length ≤ maxR := by
  induction ps with
  | nil =>
    intro seen uniq hlen hpw _
    exact ⟨hpw, Nat.le_of_lt hlen⟩
  | cons p ps ih =>
    intro seen uniq hlen hpw hseen
    rw [dedupLoop]
    by_cases hc : policyId p ≠ [] ∧ policyId p ∉ seen
    · rw [if_pos hc]
      have hpw2 : ((uniq ++ [p]).map policyId).Pairwise (· ≠ ·) := by
        rw [List.map_append]
        refine List.pairwise_append.mpr ⟨hpw, by simp, ?_⟩
        intro a ha b hb
        simp only [List.map_cons, List.map_nil, List.mem_singleton] at hb
        obtain ⟨q, hq, rfl⟩ := List.mem_map.mp ha
        subst hb
        intro hcon
        exact hc.2 (hcon ▸ hseen q hq)
      simp only
      split
      · exact ⟨hpw2, by simpa using hlen⟩
      · rename_i hlt
        have hlen2 : (uniq ++ [p]).length < maxR := Nat.lt_of_not_le hlt
        refine ih (policyId p :: seen) (uniq ++ [p]) hlen2 hpw2 ?_
        intro q hq
        rcases List.mem_append.mp hq with hq | hq
        · exact List.mem_cons_of_mem _ (hseen q hq)
        · simp only [List.mem_singleton] at hq
          subst hq
          exact List.mem_cons_self _ _
    · rw [if_neg hc]
      simp only
      split
      · rename_i hge
        exact absurd (Nat.lt_of_lt_of_le hlen hge) (Nat.lt_irrefl _)
      · exact ih seen uniq hlen hpw hseen

/-- C1 counterexample: with a first keyword whose request raises and a
second whose request succeeds with one policy, the function returns the
empty accumulated list — the batch is aborted, while the claim's
failure-is-zero-results reading would return the second keyword's policy;
and with `max_results = 0` the truncation bound is exceeded, because the
early-exit length check only runs after an append. -/
theorem searchByKeywords_claim_cx :
    (searchPoliciesByKeywords 0 cxFetchFail ["a".data, "b".data] 5 = []
      ∧ searchByKeywordsClaimed 0 cxFetchFail ["a".data, "b".data] 5 = [cxPolicy])
    ∧ (searchPoliciesByKeywords 0 cxFetchOk ["a".data] 0).length = 1 :=
  ⟨⟨by decide, by decide⟩, by decide⟩

/-- C1 (amended): when every keyword request succeeds and
`max_results ≥ 1`, the returned list is deduplicated by the source-native
policy id (`bizId`, else `polyBizSecd`) and holds at most `max_results`
records; when some keyword's request raises, the batch stops there and the
list accumulated from the preceding keywords is returned as-is, without
deduplication or truncation. -/
theorem searchByKeywords_amended (today maxR : Nat)
    (fetch : List Char → Except Unit (Option (List Policy)))
    (kws1 rest : List (List Char))
    (hok : ∀ k ∈ kws1, (fetch k).isOk = true) (hmax : 1 ≤ maxR) :
    (rest = [] →
      ((searchPoliciesByKeywords today fetch kws1 maxR).map policyId).Pairwise (· ≠ ·)
      ∧ (searchPoliciesByKeywords today fetch kws1 maxR).length ≤ maxR)
    ∧ (∀ k rest2, rest = k :: rest2 → fetch k = Except.error () →
        searchPoliciesByKeywords today fetch (kws1 ++ rest) maxR =
          accumKeywords today fetch kws1) := by
  constructor
  · intro _
    unfold searchPoliciesByKeywords
    rw [kwLoop_ok today fetch kws1 hok []]
    simp only [List.nil_append]
    exact dedupLoop_inv maxR (accumKeywords today fetch kws1) [] [] hmax
      (by simp) (by simp)
  · intro k rest2 hrest hk
    subst hrest
    unfold searchPoliciesByKeywords
    rw [kwLoop_err today fetch kws1 k rest2 hok hk []]
    simp

/-- Witness for the amended C1 at a concrete oracle: one successful
keyword followed by one failing keyword. -/
theorem searchByKeywords_amended_witness :
    ((["a".data] : List (List Char)) = [] →
      ((searchPoliciesByKeywords 0 cxFetchFail ["b".data] 1).map policyId).Pairwise (· ≠ ·)
      ∧ (searchPoliciesByKeywords 0 cxFetchFail ["b".data] 1).length ≤ 1)
    ∧ (∀ k rest2, (["a".data] : List (List Char)) = k :: rest2 →
        cxFetchFail k = Except.error () →
        searchPoliciesByKeywords 0 cxFetchFail (["b".data] ++ ["a".data]) 1 =
          accumKeywords 0 cxFetchFail ["b".data]) :=
  searchByKeywords_amended 0 1 cxFetchFail ["b".data] ["a".data]
    (by decide) (by decide)

theorem argmaxFirst_cons_cons (x y : List Char × Nat) (rest : List (List Char × Nat)) :
    argmaxFirst (x :: y :: rest) =
      if x.2 < (argmaxFirst (y :: rest)).2 then argmaxFirst (y :: rest) else x := rfl

theorem maxScore_cons (x : List Char × Nat) (l : List (List Char × Nat)) :
    maxScore (x :: l) = Nat.max x.2 (maxScore l) := rfl

theorem maxScore_ge {l : List (List Char × Nat)} :
    ∀ cs ∈ l, cs.2 ≤ maxScore l := by
  induction l with
  | nil => intro cs h; simp at h
  | cons x l ih =>
    intro cs h
    rw [maxScore_cons]
    rcases List.mem_cons.mp h with h | h
    · exact h ▸ Nat.le_max_left _ _
    · exact Nat.le_trans (ih cs h) (Nat.le_max_right _ _)

theorem maxScore_eq_zero {l : List (List Char × Nat)}
    (h : ∀ cs ∈ l, cs.2 = 0) : maxScore l = 0 := by
  induction l with
  | nil => rfl
  | cons x l ih =>
    rw [maxScore_cons, h x (List.mem_cons_self x l),
      ih fun cs hcs => h cs (List.mem_cons_of_mem x hcs)]
    rfl

theorem argmaxFirst_snd : ∀ (l : List (List Char × Nat)), l ≠ [] →
    (argmaxFirst l).2 = maxScore l := by
  intro l
  induction l with
  | nil => intro h; exact absurd rfl h
  | cons x l ih =>
    intro _
    cases l with
    | nil => simp [argmaxFirst, maxScore_cons, maxScore]
    | cons y rest =>
      have hA := ih (List.cons_ne_nil y rest)
      rw [argmaxFirst_cons_cons, maxScore_cons]
      split
      · rename_i hlt
        rw [hA]
        exact (Nat.max_eq_right (Nat.le_of_lt (hA ▸ hlt))).symm
      · rename_i hge
        exact (Nat.max_eq_left (Nat.le_of_not_lt (fun hc => hge (hA ▸ hc)))).symm

theorem argmaxFirst_find? : ∀ (l : List (List Char × Nat)), l ≠ [] →
    l.find? (fun cs => decide (cs.2 = maxScore l)) = some (argmaxFirst l) := by
  intro l
  induction l with
  | nil => intro h; exact absurd rfl h
  | cons x l ih =>
    intro _
    cases l with
    | nil =>
      simp [List.find?, argmaxFirst, maxScore_cons, maxScore]
    | cons y rest =>
      have hne : (y :: rest) ≠ [] := List.cons_ne_nil y rest
      have hA := argmaxFirst_snd (y :: rest) hne
      rw [argmaxFirst_cons_cons, maxScore_cons]
      by_cases hlt : x.2 < (argmaxFirst (y :: rest)).2
      · rw [if_pos hlt]
        have hmax : Nat.max x.2 (maxScore (y :: rest)) = maxScore (y :: rest) :=
          Nat.max_eq_right (Nat.le_of_lt (hA ▸ hlt))
        rw [hmax, List.find?_cons]
        have hpx : (decide (x.2 = maxScore (y :: rest))) = false := by
          simp only [decide_eq_false_iff_not]
          intro hc
          rw [← hA] at hc
          omega
        rw [hpx]
        exact ih hne
      · rw [if_neg hlt]
        have hxe : maxScore (y :: rest) ≤ x.2 :=
          hA ▸ Nat.le_of_not_lt hlt
        have hmax : Nat.max x.2 (maxScore (y :: rest)) = x.2 := Nat.max_eq_left hxe
        rw [hmax, List.find?_cons]
        simp

/-- C4: `classify_policy_category` returns a category with the maximal
score (3 per keyword in the title, 1 per keyword elsewhere in the combined
text); when the maximum is positive the chosen category is the first
taxonomy entry reaching it (`find?` over the declaration-ordered score
list), so ties break by declaration order; an all-zero score falls back to
the catch-all `기타`.  The embedding is a pure function of the policy, so
the classification is deterministic. -/
theorem classifyPolicyCategory_spec (p : Policy) :
    (∀ cs ∈ scoreList p, cs.2 ≤ maxScore (scoreList p))
    ∧ (0 < maxScore (scoreList p) →
        (scoreList p).find? (fun cs => decide (cs.2 = maxScore (scoreList p)))
          = some (classifyPolicyCategory p, maxScore (scoreList p)))
    ∧ ((∀ cs ∈ scoreList p, cs.2 = 0) → classifyPolicyCategory p = "기타".data) := by
  have hne : scoreList p ≠ [] := by
    simp [scoreList, POLICY_CATEGORIES]
  have hsnd := argmaxFirst_snd (scoreList p) hne
  refine ⟨fun cs hcs => maxScore_ge cs hcs, ?_, ?_⟩
  · intro hpos
    have hne0 : (argmaxFirst (scoreList p)).2 ≠ 0 := by
      rw [hsnd]
      omega
    have hcl : classifyPolicyCategory p = (argmaxFirst (scoreList p)).1 := by
      unfold classifyPolicyCategory
      rw [if_neg hne0]
    rw [argmaxFirst_find? _ hne, hcl, ← hsnd]
  · intro hz
    have h0 : (argmaxFirst (scoreList p)).2 = 0 := by
      rw [hsnd]
      exact maxScore_eq_zero hz
    unfold classifyPolicyCategory
    rw [if_pos h0]

/-- Witness for C4: the startup-keyword title from the spec's test list
classifies as the startup category, which is the unique maximal scorer. -/
theorem classifyPolicyCategory_spec_witness :
    0 < maxScore (scoreList startupPolicy)
    ∧ (scoreList startupPolicy).find?
        (fun cs => decide (cs.2 = maxScore (scoreList startupPolicy)))
      = some (classifyPolicyCategory startupPolicy, maxScore (scoreList startupPolicy))
    ∧ classifyPolicyCategory startupPolicy = "창업".data :=
  ⟨by decide, (classifyPolicyCategory_spec startupPolicy).2.1 (by decide), by decide⟩

theorem dedupPass_found : ∀ (docs : List Document) (seen : List (List Char)) (d : Document),
    d ∈ dedupPass docs seen →
      trimTitle d ≠ [] ∧ trimTitle d ∉ seen
      ∧ docs.find? (fun x => decide (trimTitle x = trimTitle d)) = some d := by
  intro docs
  induction docs with
  | nil => intro seen d h; simp [dedupPass] at h
  | cons x ds ih =>
    intro seen d h
    rw [dedupPass] at h
    by_cases hc : trimTitle x ≠ [] ∧ trimTitle x ∉ seen
    · rw [if_pos hc] at h
      rcases List.mem_cons.mp h with rfl | hmem
      · refine ⟨hc.1, hc.2, ?_⟩
        rw [List.find?_cons]
        simp
      · obtain ⟨h1, h2, h3⟩ := ih (trimTitle x :: seen) d hmem
        have hx_ne : trimTitle x ≠ trimTitle d := by
          intro hcon
          apply h2
          rw [← hcon]
          exact List.mem_cons_self _ _
        refine ⟨h1, fun hds => h2 (List.mem_cons_of_mem _ hds), ?_⟩
        rw [List.find?_cons, show (decide (trimTitle x = trimTitle d)) = false by
          simp [hx_ne]]
        exact h3
    · rw [if_neg hc] at h
      obtain ⟨h1, h2, h3⟩ := ih seen d h
      have hx_ne : trimTitle x ≠ trimTitle d := by
        intro hcon
        by_cases hxe : trimTitle x = []
        · exact h1 (hcon ▸ hxe)
        · have hxs : trimTitle x ∈ seen := by
            by_contra hxs
            exact hc ⟨hxe, hxs⟩
          exact h2 (hcon ▸ hxs)
      refine ⟨h1, h2, ?_⟩
      rw [List.find?_cons, show (decide (trimTitle x = trimTitle d)) = false by
        simp [hx_ne]]
      exact h3

theorem dedupPass_fresh_pairwise : ∀ (docs : List Document) (seen : List (List Char)),
    (∀ t ∈ (dedupPass docs seen).map trimTitle, t ∉ seen)
    ∧ ((dedupPass docs seen).map trimTitle).Pairwise (· ≠ ·) := by
  intro docs
  induction docs with
  | nil => intro seen; simp [dedupPass]
  | cons x ds ih =>
    intro seen
    rw [dedupPass]
    by_cases hc : trimTitle x ≠ [] ∧ trimTitle x ∉ seen
    · rw [if_pos hc]
      obtain ⟨ihf, ihp⟩ := ih (trimTitle x :: seen)
      constructor
      · intro t ht
        simp only [List.map_cons, List.mem_cons] at ht
        rcases ht with rfl | ht
        · exact hc.2
        · exact fun hts => ihf t ht (List.mem_cons_of_mem _ hts)
      · rw [List.map_cons]
        refine List.pairwise_cons.mpr ⟨?_, ihp⟩
        intro t ht hcon
        apply ihf t ht
        rw [← hcon]
        exact List.mem_cons_self _ _
    · rw [if_neg hc]
      exact ih seen

theorem dedupPass_id : ∀ (l : List Document) (seen : List (List Char)),
    (∀ d ∈ l, trimTitle d ≠ []) → (l.map trimTitle).Pairwise (· ≠ ·) →
    (∀ d ∈ l, trimTitle d ∉ seen) → dedupPass l seen = l := by
  intro l
  induction l with
  | nil => intro seen _ _ _; rfl
  | cons x ds ih =>
    intro seen h1 h2 h3
    rw [dedupPass,
      if_pos ⟨h1 x (List.mem_cons_self x ds), h3 x (List.mem_cons_self x ds)⟩]
    congr 1
    rw [List.map_cons] at h2
    obtain ⟨hx, hds⟩ := List.pairwise_cons.mp h2
    apply ih (trimTitle x :: seen)
    · exact fun d hd => h1 d (List.mem_cons_of_mem x hd)
    · exact hds
    · intro d hd
      simp only [List.mem_cons, not_or]
      refine ⟨?_, h3 d (List.mem_cons_of_mem x hd)⟩
      intro hcon
      exact hx (trimTitle d) (List.mem_map_of_mem trimTitle hd) hcon.symm

theorem sortByRelevance_cons (qkw : List (List Char)) (x : Document) (xs : List Document) :
    sortByRelevance qkw (x :: xs) = insRel qkw x (sortByRelevance qkw xs) := rfl

theorem insRel_perm (qkw : List (List Char)) (x : Document) (l : List Document) :
    (insRel qkw x l).Perm (x :: l) := by
  induction l with
  | nil => exact List.Perm.refl _
  | cons y ys ih =>
    rw [insRel]
    split
    · exact List.Perm.refl _
    · exact (ih.cons y).trans (List.Perm.swap x y ys)

theorem sortByRelevance_perm (qkw : List (List Char)) (l : List Document) :
    (sortByRelevance qkw l).Perm l := by
  induction l with
  | nil => exact List.Perm.refl _
  | cons x xs ih =>
    rw [sortByRelevance_cons]
    exact (insRel_perm qkw x _).trans (ih.cons x)

theorem mem_insRel {qkw : List (List Char)} {a x : Document} {l : List Document} :
    a ∈ insRel qkw x l ↔ a = x ∨ a ∈ l := by
  rw [(insRel_perm qkw x l).mem_iff]
  exact List.mem_cons

theorem pairwise_insRel {qkw : List (List Char)} {x : Document} {l : List Document}
    (h : l.Pairwise fun a b => calculateRelevance qkw b ≤ calculateRelevance qkw a) :
    (insRel qkw x l).Pairwise
      fun a b => calculateRelevance qkw b ≤ calculateRelevance qkw a := by
  induction l with
  | nil => simp [insRel]
  | cons y ys ih =>
    obtain ⟨hy, hys⟩ := List.pairwise_cons.mp h
    rw [insRel]
    split
    · rename_i hxy
      refine List.pairwise_cons.mpr ⟨fun b hb => ?_, h⟩
      rcases List.mem_cons.mp hb with rfl | hb
      · exact hxy
      · exact Nat.le_trans (hy b hb) hxy
    · rename_i hxy
      have hyx : calculateRelevance qkw x ≤ calculateRelevance qkw y :=
        Nat.le_of_lt (Nat.lt_of_not_le hxy)
      refine List.pairwise_cons.mpr ⟨fun b hb => ?_, ih hys⟩
      rcases mem_insRel.mp hb with rfl | hb
      · exact hyx
      · exact hy b hb

theorem pairwise_sortByRelevance (qkw : List (List Char)) (l : List Document) :
    (sortByRelevance qkw l).Pairwise
      fun a b => calculateRelevance qkw b ≤ calculateRelevance qkw a := by
  induction l with
  | nil => simp [sortByRelevance]
  | cons x xs ih =>
    rw [sortByRelevance_cons]
    exact pairwise_insRel ih

theorem sortByRelevance_of_pairwise (qkw : List (List Char)) :
    ∀ l : List Document,
      (l.Pairwise fun a b => calculateRelevance qkw b ≤ calculateRelevance qkw a) →
      sortByRelevance qkw l = l := by
  intro l
  induction l with
  | nil => intro _; rfl
  | cons x ys ih =>
    intro h
    obtain ⟨hx, hys⟩ := List.pairwise_cons.mp h
    rw [sortByRelevance_cons, ih hys]
    cases ys with
    | nil => rfl
    | cons y r =>
      rw [insRel, if_pos (hx y (List.mem_cons_self y r))]

/-- C10: the merged ranking drops every document whose title metadata is
missing, empty, or whitespace-only after trimming — every entry of the
output has a non-empty trimmed title. -/
theorem dedupAndRank_titles_nonempty (docs : List Document) (q : List Char) :
    ∀ d ∈ dedupAndRankDocs docs q, trimTitle d ≠ [] := by
  intro d hd
  have hperm := sortByRelevance_perm (queryKeywords q) (dedupPass docs [])
  exact (dedupPass_found docs [] d (hperm.mem_iff.mp hd)).1

/-- Witness for C10 at a concrete single-document input. -/
theorem dedupAndRank_titles_nonempty_witness :
    cxDocW ∈ dedupAndRankDocs [cxDocW] [] ∧ trimTitle cxDocW ≠ [] :=
  ⟨by decide, dedupAndRank_titles_nonempty [cxDocW] [] cxDocW (by decide)⟩

/-- C5 counterexample: titles `A` and `a` differ only by case; both
survive deduplication, so two output entries share a case-folded trimmed
title — the deduplication key is not case-folded. -/
theorem dedup_casefold_cx :
    dedupAndRankDocs [cxDocA, cxDocB] [] = [cxDocA, cxDocB]
    ∧ pyLower (trimTitle cxDocA) = pyLower (trimTitle cxDocB)
    ∧ cxDocA ≠ cxDocB :=
  ⟨by decide, by decide, by decide⟩

/-- C5 (amended): the output of the merge-and-rank step contains no two
entries with the same trimmed title (compared exactly, without
case-folding), and each surviving entry is the first document of the input
carrying its trimmed title. -/
theorem dedup_by_trimmed_title (docs : List Document) (q : List Char) :
    ((dedupAndRankDocs docs q).map trimTitle).Pairwise (· ≠ ·)
    ∧ ∀ d ∈ dedupAndRankDocs docs q,
        docs.find? (fun x => decide (trimTitle x = trimTitle d)) = some d := by
  have hperm := sortByRelevance_perm (queryKeywords q) (dedupPass docs [])
  constructor
  · have hpw := (dedupPass_fresh_pairwise docs []).2
    have hmp : ((dedupAndRankDocs docs q).map trimTitle).Perm
        ((dedupPass docs []).map trimTitle) := hperm.map _
    exact (List.Perm.pairwise_iff (fun h => h.symm) hmp).mpr hpw
  · intro d hd
    exact (dedupPass_found docs [] d (hperm.mem_iff.mp hd)).2.2

/-- Witness for the amended C5 at a concrete input. -/
theorem dedup_by_trimmed_title_witness :
    ((dedupAndRankDocs [cxDocW] []).map trimTitle).Pairwise (· ≠ ·)
    ∧ cxDocW ∈ dedupAndRankDocs [cxDocW] []
    ∧ [cxDocW].find? (fun x => decide (trimTitle x = trimTitle cxDocW)) = some cxDocW :=
  ⟨(dedup_by_trimmed_title [cxDocW] []).1, by decide,
   (dedup_by_trimmed_title [cxDocW] []).2 cxDocW (by decide)⟩

/-- C6: the merge-and-rank step is idempotent — its output (non-empty
distinct trimmed titles, sorted by the descending relevance score
`title_hits * 3 + body_hits + source_bonus` with the stable sort keeping
input order among equal scores) passes through both phases unchanged. -/
theorem dedupAndRank_idempotent (docs : List Document) (q : List Char) :
    dedupAndRankDocs (dedupAndRankDocs docs q) q = dedupAndRankDocs docs q := by
  have hperm := sortByRelevance_perm (queryKeywords q) (dedupPass docs [])
  have h1 : ∀ d ∈ dedupAndRankDocs docs q, trimTitle d ≠ [] := fun d hd =>
    (dedupPass_found docs [] d (hperm.mem_iff.mp hd)).1
  have h2 : ((dedupAndRankDocs docs q).map trimTitle).Pairwise (· ≠ ·) :=
    (List.Perm.pairwise_iff (fun h => h.symm) (hperm.map _)).mpr
      (dedupPass_fresh_pairwise docs []).2
  have h3 : ∀ d ∈ dedupAndRankDocs docs q, trimTitle d ∉ ([] : List (List Char)) := by
    simp
  have hdp : dedupPass (dedupAndRankDocs docs q) [] = dedupAndRankDocs docs q :=
    dedupPass_id _ [] h1 h2 h3
  have hsorted := pairwise_sortByRelevance (queryKeywords q) (dedupPass docs [])
  show sortByRelevance (queryKeywords q) (dedupPass (dedupAndRankDocs docs q) [])
      = dedupAndRankDocs docs q
  rw [hdp]
  exact sortByRelevance_of_pairwise (queryKeywords q) _ hsorted

end YouthyAI
